import Mathlib

/-!
Shallow embedding of the `SinglyLinkedList<T>` container from
`src/SinglyLinkedList.h`.

Heap abstraction: each allocated node is identified by a ghost id (a `Nat`,
standing for its address), handed out by a per-list ghost counter `fresh`.
The ownership chain hanging off `head_` is modelled as the list `chain` of
`(id, data)` pairs in link order; the raw pointer `tail_` is the field
`tail` (`none` models `nullptr`, `some i` models a pointer to the node with
id `i`); `list_size` is the cached size.  Pointer equality between nodes of
one list is id equality (ids are never reused, since `fresh` only grows).
Iterators (`iterator` / `const_iterator`) are position handles `Option Nat`:
`none` is the end sentinel (null `ptr_`), `some i` points at node `i`.

`T` is an arbitrary type `α`; the emplace operations construct a `T` in
place from forwarded arguments, so in the model they receive the already
constructed value.  C++ `std::size_t` arithmetic on `list_size` is modelled
on `Nat`: the container can never actually hold `2^64` nodes (every node
occupies memory in a `2^64`-byte address space), so `++list_size` never
overflows, and every `--list_size` in the source runs only after a
non-empty check, so under the representation invariant it never wraps;
`Nat` truncation at zero and `size_t` wrap-around therefore agree on all
states reachable from a well-formed list.
-/

/-- The exceptions thrown by `SinglyLinkedList`: `std::out_of_range` and
`std::invalid_argument`, with their messages. -/
inductive CppError : Type
  | out_of_range (msg : String)
  | invalid_argument (msg : String)
deriving DecidableEq

/-- Outcome of calling a member function on a list object: either a normal
return carrying the returned value and the object's state afterwards, or a
thrown exception carrying the object's state at the throw point. -/
inductive OpResult (ρ σ : Type) : Type
  | ok (ret : ρ) (st : σ)
  | threw (e : CppError) (st : σ)
deriving DecidableEq

/-- The state of the object after the call, normal or exceptional. -/
def OpResult.st {ρ σ : Type} : OpResult ρ σ → σ
  | .ok _ s => s
  | .threw _ s => s

/-- Did the call throw? -/
def OpResult.isThrew {ρ σ : Type} : OpResult ρ σ → Bool
  | .ok _ _ => false
  | .threw _ _ => true

/-- Model of `SinglyLinkedList<T>`: `chain` is the node chain owned by `head_`
(ghost id and stored data, in link order), `tail` the raw `tail_` pointer,
`list_size` the cached size, `fresh` the ghost allocator counter. -/
structure SLL (α : Type) : Type where
  chain : List (Nat × α)
  tail : Option Nat
  list_size : Nat
  fresh : Nat
deriving DecidableEq

namespace SLL

variable {α : Type}

/-- Default constructor: `head_(nullptr), tail_(nullptr), list_size(0)`. -/
def empty : SLL α := ⟨[], none, 0, 0⟩

/-- The ghost ids (addresses) of the nodes reachable from `head_`. -/
def ids (s : SLL α) : List Nat := s.chain.map Prod.fst

/-- The stored elements in chain order. -/
def elems (s : SLL α) : List α := s.chain.map Prod.snd

/-- Model of `size()`: returns the cached `list_size`. -/
def size (s : SLL α) : Nat := s.list_size

/-- Model of `empty()`: `list_size == 0`. -/
def isEmpty (s : SLL α) : Bool := s.list_size == 0

/-- Model of `begin()` / `cbegin()`: an iterator at `head_.get()`. -/
def begin (s : SLL α) : Option Nat := s.chain.head?.map Prod.fst

/-- Model of `end()` / `cend()`: the null iterator (end sentinel). -/
def endIter : Option Nat := (none : Option Nat)

/-- The node (id and data) referenced by node `p`'s `next` pointer: walk
the chain to the first node with id `p` and report its successor.  When
`p` is not on the chain at all, the source would be following a dangling
pointer (undefined behaviour); the model answers `none` there, which is
never hit from invariant states and live positions. -/
def nextOf : List (Nat × α) → Nat → Option (Nat × α)
  | [], _ => none
  | x :: xs, p => if x.1 = p then xs.head? else nextOf xs p

/-- Iterator `operator++`: `ptr_ = ptr_->next.get()`.  (Incrementing the
end iterator dereferences null in the source; the model keeps it at
`none`.) -/
def iterNext (s : SLL α) (it : Option Nat) : Option Nat :=
  it.bind (fun p => (nextOf s.chain p).map Prod.fst)

/-- Model of `n` applications of `operator++` to `begin()`: the position reached
after visiting `n` elements of the forward traversal. -/
def iterFrom (s : SLL α) : Nat → Option Nat
  | 0 => s.begin
  | n + 1 => s.iterNext (s.iterFrom n)

/-- Model of `clear()`: `head_.reset(); tail_ = nullptr; list_size = 0;`. -/
def clear (s : SLL α) : SLL α := ⟨[], none, 0, s.fresh⟩

/-- Model of `push_front(value)` (the copy and move overloads both store `value` in
the new node):
`auto node = make_unique<Node>(value); if (!head_) tail_ = node.get();
else node->next = move(head_); head_ = move(node); ++list_size;`. -/
def push_front (s : SLL α) (value : α) : SLL α :=
  match s.chain with
  | [] => { chain := [(s.fresh, value)], tail := some s.fresh,
            list_size := s.list_size + 1, fresh := s.fresh + 1 }
  | _ :: _ => { chain := (s.fresh, value) :: s.chain, tail := s.tail,
                list_size := s.list_size + 1, fresh := s.fresh + 1 }

/-- Model of `emplace_front(args...)`: same body as `push_front`, the element being
constructed in place from the forwarded arguments. -/
def emplace_front (s : SLL α) (value : α) : SLL α :=
  match s.chain with
  | [] => { chain := [(s.fresh, value)], tail := some s.fresh,
            list_size := s.list_size + 1, fresh := s.fresh + 1 }
  | _ :: _ => { chain := (s.fresh, value) :: s.chain, tail := s.tail,
                list_size := s.list_size + 1, fresh := s.fresh + 1 }

/-- Effect on the chain of `tail_->next = std::move(node)`: the first node
with id `t` gets the new node as its sole successor (anything that hung off
it before would be destroyed).  An empty chain means `tail_` was not
reachable from `head_` (a dangling pointer write, undefined behaviour in
the source); unreachable under the invariant. -/
def setNext (t : Nat) (nw : Nat × α) : List (Nat × α) → List (Nat × α)
  | [] => []
  | x :: xs => if x.1 = t then [x, nw] else x :: setNext t nw xs

/-- Model of `push_back(value)`:
`auto node = make_unique<Node>(value); Node *raw = node.get();
if (!head_) head_ = move(node); else tail_->next = move(node);
tail_ = raw; ++list_size;`. -/
def push_back (s : SLL α) (value : α) : SLL α :=
  match s.chain, s.tail with
  | [], _ => { chain := [(s.fresh, value)], tail := some s.fresh,
               list_size := s.list_size + 1, fresh := s.fresh + 1 }
  | _ :: _, some t => { chain := setNext t (s.fresh, value) s.chain,
                        tail := some s.fresh,
                        list_size := s.list_size + 1, fresh := s.fresh + 1 }
  | _ :: _, none =>
      -- head_ non-null while tail_ is null: the source writes through a
      -- null pointer here (undefined behaviour); unreachable under the
      -- invariant, where a non-empty chain forces a non-null tail_.
      { chain := s.chain, tail := some s.fresh,
        list_size := s.list_size + 1, fresh := s.fresh + 1 }

/-- Model of `emplace_back(args...)`: same body as `push_back`, the element being
constructed in place from the forwarded arguments. -/
def emplace_back (s : SLL α) (value : α) : SLL α :=
  match s.chain, s.tail with
  | [], _ => { chain := [(s.fresh, value)], tail := some s.fresh,
               list_size := s.list_size + 1, fresh := s.fresh + 1 }
  | _ :: _, some t => { chain := setNext t (s.fresh, value) s.chain,
                        tail := some s.fresh,
                        list_size := s.list_size + 1, fresh := s.fresh + 1 }
  | _ :: _, none =>
      { chain := s.chain, tail := some s.fresh,
        list_size := s.list_size + 1, fresh := s.fresh + 1 }

/-- Model of `pop_front()`:
`if (!head_) throw out_of_range(...); head_ = move(head_->next);
if (!head_) tail_ = nullptr; --list_size;`. -/
def pop_front (s : SLL α) : OpResult Unit (SLL α) :=
  match s.chain with
  | [] => .threw (.out_of_range "pop_front on an empty list") s
  | _ :: rest =>
      .ok () { chain := rest,
               tail := if rest.isEmpty then none else s.tail,
               list_size := s.list_size - 1, fresh := s.fresh }

/-- The `pop_back` walk
`Node *current = head_.get(); while (current->next.get() != tail_)
current = current->next.get(); current->next.reset();`:
the chain truncated right after the node whose successor is `tail_` (that
node becomes the last one).  If `tail_` never shows up as a successor, the
source loop runs off the chain (undefined behaviour); the model's fallback
values in that situation are unreachable under the invariant. -/
def popBackChain (t : Option Nat) : List (Nat × α) → List (Nat × α)
  | [] => []
  | x :: xs => if xs.head?.map Prod.fst = t then [x] else x :: popBackChain t xs

/-- Model of `pop_back()`:
`if (!head_) throw out_of_range(...);
if (head_.get() == tail_) pop_front(); else { walk; current->next.reset();
tail_ = current; --list_size; }`. -/
def pop_back (s : SLL α) : OpResult Unit (SLL α) :=
  match s.chain with
  | [] => .threw (.out_of_range "pop_back on an empty list") s
  | h :: _ =>
      if s.tail = some h.1 then
        pop_front s
      else
        let c := popBackChain s.tail s.chain
        .ok () { chain := c, tail := c.getLast?.map Prod.fst,
                 list_size := s.list_size - 1, fresh := s.fresh }

/-- Effect on the chain of
`node->next = std::move(current->next); current->next = std::move(node)`:
splice the new node right after the first node with id `p`.  When `p` is
not on the chain, the source writes through a dangling `current` pointer
(undefined behaviour); the model leaves the chain alone there, which is
never hit for live positions. -/
def insertAfterChain (p : Nat) (nw : Nat × α) : List (Nat × α) → List (Nat × α)
  | [] => []
  | x :: xs => if x.1 = p then x :: nw :: xs else x :: insertAfterChain p nw xs

/-- Model of `insert_after(pos, value)`:
`Node *current = pos.ptr_; if (!current) throw invalid_argument(...);
auto node = make_unique<Node>(value); Node *raw = node.get();
if (tail_ == current) tail_ = raw; node->next = move(current->next);
current->next = move(node); ++list_size; return iterator(raw);`. -/
def insert_after (s : SLL α) (pos : Option Nat) (value : α) :
    OpResult (Option Nat) (SLL α) :=
  match pos with
  | none => .threw (.invalid_argument "Cannot insert_after a null iterator") s
  | some p =>
      .ok (some s.fresh)
        { chain := insertAfterChain p (s.fresh, value) s.chain,
          tail := if s.tail = some p then some s.fresh else s.tail,
          list_size := s.list_size + 1, fresh := s.fresh + 1 }

/-- Model of `emplace_after(pos, args...)`: same body as `insert_after`, the element
being constructed in place from the forwarded arguments. -/
def emplace_after (s : SLL α) (pos : Option Nat) (value : α) :
    OpResult (Option Nat) (SLL α) :=
  match pos with
  | none => .threw (.invalid_argument "Cannot emplace_after a null iterator") s
  | some p =>
      .ok (some s.fresh)
        { chain := insertAfterChain p (s.fresh, value) s.chain,
          tail := if s.tail = some p then some s.fresh else s.tail,
          list_size := s.list_size + 1, fresh := s.fresh + 1 }

/-- Effect on the chain of
`auto to_delete = move(current->next); current->next = move(to_delete->next)`:
unlink the successor of the first node with id `p`. -/
def eraseAfterChain (p : Nat) : List (Nat × α) → List (Nat × α)
  | [] => []
  | x :: xs => if x.1 = p then x :: xs.tail else x :: eraseAfterChain p xs

/-- Model of `erase_after(pos)`:
`Node *current = pos.ptr_; if (!current || !current->next)
throw out_of_range(...); auto to_delete = move(current->next);
Node *next_node = to_delete->next.get(); if (tail_ == to_delete.get())
tail_ = current; current->next = move(to_delete->next); --list_size;
return iterator(next_node);`.
The `nextOf`-is-`none` branch merges the real throw (live `pos` whose
successor is null) with the undefined behaviour of a dangling `pos`;
claims only exercise it for live positions, where it is exactly the
`!current->next` throw. -/
def erase_after (s : SLL α) (pos : Option Nat) :
    OpResult (Option Nat) (SLL α) :=
  match pos with
  | none => .threw (.out_of_range "Cannot erase_after: no next element") s
  | some p =>
      match nextOf s.chain p with
      | none => .threw (.out_of_range "Cannot erase_after: no next element") s
      | some q =>
          .ok ((nextOf s.chain q.1).map Prod.fst)
            { chain := eraseAfterChain p s.chain,
              tail := if s.tail = some q.1 then some p else s.tail,
              list_size := s.list_size - 1, fresh := s.fresh }

/-- The `reverse()` loop: `prev` is the chain of already re-linked nodes
(in reversed order), the argument the nodes still ahead of `current`;
each step moves one node from the front of the remainder onto `prev`. -/
def revLoop (prev : List (Nat × α)) : List (Nat × α) → List (Nat × α)
  | [] => prev
  | x :: xs => revLoop (x :: prev) xs

/-- Model of `reverse()`:
`if (list_size < 2) return; Node *prev = nullptr;
auto current = move(head_); tail_ = current.get();
while (current) { auto next = move(current->next);
current->next.reset(prev); prev = current.release(); current = move(next); }
head_.reset(prev);`. -/
def reverse (s : SLL α) : SLL α :=
  if s.list_size < 2 then s
  else { chain := revLoop [] s.chain,
         tail := s.chain.head?.map Prod.fst,
         list_size := s.list_size, fresh := s.fresh }

/-- Model of `front()`: `if (!head_) throw out_of_range(...); return head_->data;`. -/
def front (s : SLL α) : OpResult α (SLL α) :=
  match s.chain with
  | [] => .threw (.out_of_range "Accessing front() on an empty list") s
  | x :: _ => .ok x.2 s

/-- The node a raw pointer with id `t` references, found on the chain;
`none` means the pointer does not point into the chain (possible only in
states violating the invariant). -/
def lookupId : List (Nat × α) → Nat → Option (Nat × α)
  | [], _ => none
  | x :: xs, t => if x.1 = t then some x else lookupId xs t

/-- Model of `back()`: `if (!tail_) throw out_of_range(...); return tail_->data;`.
The returned value is an `Option` only because the model must look the
`tail_` pointer up on the chain; under the invariant a non-null `tail_`
always resolves to the last node. -/
def back (s : SLL α) : OpResult (Option α) (SLL α) :=
  match s.tail with
  | none => .threw (.out_of_range "Accessing back() on an empty list") s
  | some t => .ok ((lookupId s.chain t).map Prod.snd) s

/-- Model of `swap(a, b)`: exchanges `head_`, `tail_` and `list_size` (the ghost
allocator counter travels with the nodes it has stamped). -/
def swapLists (a b : SLL α) : SLL α × SLL α := (b, a)

/-- The `SinglyLinkedList(std::initializer_list<T>)` constructor: start
from the default-constructed list and `push_back` every value in order. -/
def ofList (l : List α) : SLL α := l.foldl push_back empty

/-- The copy constructor: delegates to the default constructor, then
`push_back`s every element of `other` in traversal order. -/
def copyCtor (other : SLL α) : SLL α := other.elems.foldl push_back empty

/-- The move constructor: steals `head_`, `tail_`, `list_size`; the source
is left with `head_ = nullptr, tail_ = nullptr, list_size = 0`.  Returns
(the new list, the moved-from source). -/
def moveCtor (s : SLL α) : SLL α × SLL α :=
  (⟨s.chain, s.tail, s.list_size, s.fresh⟩, ⟨[], none, 0, s.fresh⟩)

/-- Model of `operator=(SinglyLinkedList other)` where `other` was copy-constructed
from `source`: `swap(*this, other); return *this;` — the old contents of
`this` leave with the temporary and are destroyed at its end of scope. -/
def copyAssign (this source : SLL α) : SLL α :=
  (swapLists this (copyCtor source)).1

/-- Model of `operator=(SinglyLinkedList other)` where `other` was move-constructed
from `source`.  Returns (the assigned-to list, the moved-from source). -/
def moveAssign (this source : SLL α) : SLL α × SLL α :=
  ((swapLists this (moveCtor source).1).1, (moveCtor source).2)

/-- Copy self-assignment `L = L`: the by-value parameter is a fresh deep
copy of `L`, swapped into place. -/
def copySelfAssign (l : SLL α) : SLL α := copyAssign l l

/-- Move self-assignment `L = std::move(L)`: the by-value parameter is
move-constructed from `L` (emptying `L`), then swapped into `L`. -/
def moveSelfAssign (l : SLL α) : SLL α :=
  ((swapLists (moveCtor l).2 (moveCtor l).1).1)

/-- The element-range walk of `std::equal(first1, last1, first2)`: compare
the first range against the second, element by element.  When the first
range is longer than the second the source reads `*first2` past the end of
the second chain (undefined behaviour); the size pre-check of
`operator==` makes that branch unreachable for well-formed lists. -/
def stdEqualAux [DecidableEq α] : List α → List α → Bool
  | [], _ => true
  | x :: xs, y :: ys => x == y && stdEqualAux xs ys
  | _ :: _, [] => true

/-- Model of `operator==(lhs, rhs)`:
`if (lhs.size() != rhs.size()) return false;
return std::equal(lhs.cbegin(), lhs.cend(), rhs.cbegin());`. -/
def opEq [DecidableEq α] (lhs rhs : SLL α) : Bool :=
  if lhs.size ≠ rhs.size then false else stdEqualAux lhs.elems rhs.elems

/-- Model of `operator!=(lhs, rhs)`: `!(lhs == rhs)`. -/
def opNe [DecidableEq α] (lhs rhs : SLL α) : Bool := !opEq lhs rhs

/-- Model of `std::lexicographical_compare(first1, last1, first2, last2)` over the
element sequences: at each step, `*first1 < *first2` decides less,
`*first2 < *first1` decides not-less; exhausting the first range first
(strict prefix) decides less. -/
def lexLtAux [LT α] [DecidableRel ((· < ·) : α → α → Prop)] :
    List α → List α → Bool
  | [], [] => false
  | [], _ :: _ => true
  | _ :: _, [] => false
  | x :: xs, y :: ys =>
      if x < y then true else if y < x then false else lexLtAux xs ys

/-- Model of `operator<(lhs, rhs)`:
`std::lexicographical_compare(lhs.cbegin(), lhs.cend(), rhs.cbegin(),
rhs.cend())`. -/
def opLt [LT α] [DecidableRel ((· < ·) : α → α → Prop)]
    (lhs rhs : SLL α) : Bool :=
  lexLtAux lhs.elems rhs.elems

/-- Model of `operator<=(lhs, rhs)`: `!(rhs < lhs)`. -/
def opLe [LT α] [DecidableRel ((· < ·) : α → α → Prop)]
    (lhs rhs : SLL α) : Bool := !opLt rhs lhs

/-- Model of `operator>(lhs, rhs)`: `rhs < lhs`. -/
def opGt [LT α] [DecidableRel ((· < ·) : α → α → Prop)]
    (lhs rhs : SLL α) : Bool := opLt rhs lhs

/-- Model of `operator>=(lhs, rhs)`: `!(lhs < rhs)`. -/
def opGe [LT α] [DecidableRel ((· < ·) : α → α → Prop)]
    (lhs rhs : SLL α) : Bool := !opLt lhs rhs

/-- The representation invariant of `SinglyLinkedList`: the cached size is
the length of the chain reachable from `head_`; `tail_` points at the last
node of that chain (and is null exactly when the chain is empty); node
addresses are pairwise distinct; and every allocated id lies below the
ghost allocator counter. -/
def Inv (s : SLL α) : Prop :=
  s.list_size = s.chain.length
  ∧ s.tail = s.chain.getLast?.map Prod.fst
  ∧ s.ids.Nodup
  ∧ ∀ i ∈ s.ids, i < s.fresh

instance (s : SLL α) : Decidable s.Inv :=
  inferInstanceAs (Decidable (_ ∧ _ ∧ _ ∧ _))

/-- Call-stack depth of releasing a chain: `~SinglyLinkedList()` (which is
defaulted) and `clear()` both release `head_`, and destroying one `Node`
destroys its `std::unique_ptr<Node> next` member, which runs a further,
nested `Node` destructor — one stack frame per node of the chain. -/
def destroyDepth : List (Nat × α) → Nat
  | [] => 0
  | _ :: xs => destroyDepth xs + 1

/-! ### Helper lemmas about the chain operations -/

theorem mem_of_getLast?_eq {β : Type} {l : List β} {a : β}
    (h : l.getLast? = some a) : a ∈ l := by
  rw [List.getLast?_eq_getElem?] at h
  obtain ⟨hl, hget⟩ := List.getElem?_eq_some_iff.mp h
  exact hget ▸ List.getElem_mem hl

theorem revLoop_eq (l acc : List (Nat × α)) :
    revLoop acc l = l.reverse ++ acc := by
  induction l generalizing acc with
  | nil => simp [revLoop]
  | cons x xs ih => simp [revLoop, ih]

theorem setNext_eq (t : Nat) (nw : Nat × α) :
    ∀ c : List (Nat × α), c.getLast?.map Prod.fst = some t →
      (c.map Prod.fst).Nodup → setNext t nw c = c ++ [nw]
  | [], hlast, _ => by simp at hlast
  | [x], hlast, _ => by
      simp only [List.getLast?_singleton, Option.map_some] at hlast
      simp [setNext, Option.some.injEq] at hlast ⊢
      simp [hlast]
  | x :: y :: rest, hlast, hn => by
      have hlast' : (y :: rest).getLast?.map Prod.fst = some t := by
        rwa [show (x :: y :: rest).getLast? = (y :: rest).getLast? from rfl] at hlast
      have htmem : t ∈ (y :: rest).map Prod.fst := by
        obtain ⟨a, ha⟩ := Option.map_eq_some.mp hlast'
        exact ha.2 ▸ List.mem_map_of_mem _ (mem_of_getLast?_eq ha.1)
      have hx : x.1 ≠ t := by
        rw [List.map_cons, List.nodup_cons] at hn
        intro hxt
        exact hn.1 (hxt ▸ htmem)
      have ih := setNext_eq t nw (y :: rest) hlast'
        (by rw [List.map_cons, List.nodup_cons] at hn; exact hn.2)
      show (if x.1 = t then [x, nw] else x :: setNext t nw (y :: rest))
          = (x :: y :: rest) ++ [nw]
      rw [if_neg hx, ih]
      rfl

theorem popBackChain_eq (t : Nat) :
    ∀ c : List (Nat × α), c.getLast?.map Prod.fst = some t →
      (c.map Prod.fst).Nodup → c.head?.map Prod.fst ≠ some t →
      popBackChain (some t) c = c.dropLast
  | [], hlast, _, _ => by simp at hlast
  | [x], hlast, _, hhead => by
      simp only [List.getLast?_singleton] at hlast
      simp only [List.head?_cons] at hhead
      exact absurd hlast hhead
  | x :: y :: rest, hlast, hn, _ => by
      have hlast' : (y :: rest).getLast?.map Prod.fst = some t := by
        rwa [show (x :: y :: rest).getLast? = (y :: rest).getLast? from rfl] at hlast
      rcases rest with _ | ⟨z, rest'⟩
      · have hyt : y.1 = t := by simpa using hlast'
        simp [popBackChain, hyt]
      · have htmem : t ∈ (z :: rest').map Prod.fst := by
          have hz : (z :: rest').getLast?.map Prod.fst = some t := by
            rwa [show (y :: z :: rest').getLast? = (z :: rest').getLast? from rfl]
              at hlast'
          obtain ⟨a, ha1, ha2⟩ := Option.map_eq_some'.mp hz
          exact ha2 ▸ List.mem_map_of_mem _ (mem_of_getLast?_eq ha1)
        have hyt : y.1 ≠ t := by
          have hn' : ((y :: z :: rest').map Prod.fst).Nodup := by
            simpa using hn.of_cons
          rw [List.map_cons, List.nodup_cons] at hn'
          intro h
          exact hn'.1 (h ▸ htmem)
        have hy : (y :: z :: rest').head?.map Prod.fst ≠ some t := by
          simpa using hyt
        have ih := popBackChain_eq t (y :: z :: rest') hlast'
          (by simpa using hn.of_cons) hy
        simp only [popBackChain, List.head?_cons, Option.map_some', ne_eq,
          Option.some.injEq, if_neg hyt] at ih ⊢
        rw [ih]
        rfl

theorem insertAfterChain_eq (p : Nat) (nw : Nat × α) :
    ∀ (l : List (Nat × α)) (i : Nat) (x : α), (l.map Prod.fst).Nodup →
      l[i]? = some (p, x) →
      insertAfterChain p nw l = l.take (i + 1) ++ nw :: l.drop (i + 1)
  | [], i, x, _, hp => by simp at hp
  | a :: xs, 0, x, _, hp => by
      simp only [List.getElem?_cons_zero, Option.some.injEq] at hp
      simp [insertAfterChain, hp]
  | a :: xs, i + 1, x, hn, hp => by
      simp only [List.getElem?_cons_succ] at hp
      have hpmem : p ∈ xs.map Prod.fst := by
        obtain ⟨hl, hget⟩ := List.getElem?_eq_some_iff.mp hp
        exact List.mem_map_of_mem Prod.fst (hget ▸ List.getElem_mem hl)
      have ha : a.1 ≠ p := by
        rw [List.map_cons, List.nodup_cons] at hn
        intro h
        exact hn.1 (h ▸ hpmem)
      have ih := insertAfterChain_eq p nw xs i x
        (by rw [List.map_cons, List.nodup_cons] at hn; exact hn.2) hp
      simp only [insertAfterChain, if_neg ha, ih]
      rfl

theorem eraseAfterChain_eq (p : Nat) :
    ∀ (l : List (Nat × α)) (i : Nat) (x : α), (l.map Prod.fst).Nodup →
      l[i]? = some (p, x) →
      eraseAfterChain p l = l.take (i + 1) ++ l.drop (i + 2)
  | [], i, x, _, hp => by simp at hp
  | a :: xs, 0, x, _, hp => by
      simp only [List.getElem?_cons_zero, Option.some.injEq] at hp
      cases xs <;> simp [eraseAfterChain, hp]
  | a :: xs, i + 1, x, hn, hp => by
      simp only [List.getElem?_cons_succ] at hp
      have hpmem : p ∈ xs.map Prod.fst := by
        obtain ⟨hl, hget⟩ := List.getElem?_eq_some_iff.mp hp
        exact List.mem_map_of_mem Prod.fst (hget ▸ List.getElem_mem hl)
      have ha : a.1 ≠ p := by
        rw [List.map_cons, List.nodup_cons] at hn
        intro h
        exact hn.1 (h ▸ hpmem)
      have ih := eraseAfterChain_eq p xs i x
        (by rw [List.map_cons, List.nodup_cons] at hn; exact hn.2) hp
      simp only [eraseAfterChain, if_neg ha, ih]
      rfl

theorem nextOf_eq :
    ∀ (l : List (Nat × α)) (i : Nat) (p : Nat) (x : α), (l.map Prod.fst).Nodup →
      l[i]? = some (p, x) → nextOf l p = l[i + 1]?
  | [], i, p, x, _, hp => by simp at hp
  | a :: xs, 0, p, x, _, hp => by
      simp only [List.getElem?_cons_zero, Option.some.injEq] at hp
      simp [nextOf, hp, List.head?_eq_getElem?]
  | a :: xs, i + 1, p, x, hn, hp => by
      simp only [List.getElem?_cons_succ] at hp
      have hpmem : p ∈ xs.map Prod.fst := by
        obtain ⟨hl, hget⟩ := List.getElem?_eq_some_iff.mp hp
        exact List.mem_map_of_mem Prod.fst (hget ▸ List.getElem_mem hl)
      have ha : a.1 ≠ p := by
        rw [List.map_cons, List.nodup_cons] at hn
        intro h
        exact hn.1 (h ▸ hpmem)
      have ih := nextOf_eq xs i p x
        (by rw [List.map_cons, List.nodup_cons] at hn; exact hn.2) hp
      simp only [nextOf, if_neg ha, ih, List.getElem?_cons_succ]

theorem lookupId_eq :
    ∀ (l : List (Nat × α)) (i : Nat) (p : Nat) (x : α),
      l[i]? = some (p, x) → (l.map Prod.fst).Nodup →
      lookupId l p = some (p, x)
  | [], i, p, x, hp, _ => by simp at hp
  | a :: xs, 0, p, x, hp, _ => by
      simp only [List.getElem?_cons_zero, Option.some.injEq] at hp
      simp [lookupId, hp]
  | a :: xs, i + 1, p, x, hp, hn => by
      simp only [List.getElem?_cons_succ] at hp
      have hpmem : p ∈ xs.map Prod.fst := by
        obtain ⟨hl, hget⟩ := List.getElem?_eq_some_iff.mp hp
        exact List.mem_map_of_mem Prod.fst (hget ▸ List.getElem_mem hl)
      have ha : a.1 ≠ p := by
        rw [List.map_cons, List.nodup_cons] at hn
        intro h
        exact hn.1 (h ▸ hpmem)
      have ih := lookupId_eq xs i p x hp
        (by rw [List.map_cons, List.nodup_cons] at hn; exact hn.2)
      simp only [lookupId, if_neg ha, ih]

@[simp] theorem st_ok {ρ σ : Type} (r : ρ) (s : σ) :
    (OpResult.ok r s).st = s := rfl

@[simp] theorem st_threw {ρ σ : Type} (e : CppError) (s : σ) :
    (OpResult.threw e s : OpResult ρ σ).st = s := rfl

@[simp] theorem isThrew_ok {ρ σ : Type} (r : ρ) (s : σ) :
    (OpResult.ok r s).isThrew = false := rfl

@[simp] theorem isThrew_threw {ρ σ : Type} (e : CppError) (s : σ) :
    (OpResult.threw e s : OpResult ρ σ).isThrew = true := rfl

@[simp] theorem ids_mk (c : List (Nat × α)) (t : Option Nat) (n f : Nat) :
    ids ⟨c, t, n, f⟩ = c.map Prod.fst := rfl

@[simp] theorem elems_mk (c : List (Nat × α)) (t : Option Nat) (n f : Nat) :
    elems ⟨c, t, n, f⟩ = c.map Prod.snd := rfl

/-! ### Closed forms of the mutators on well-formed lists -/

theorem push_front_def (s : SLL α) (v : α) :
    s.push_front v
      = { chain := (s.fresh, v) :: s.chain,
          tail := if s.chain.isEmpty then some s.fresh else s.tail,
          list_size := s.list_size + 1, fresh := s.fresh + 1 } := by
  cases hc : s.chain <;> simp [push_front, hc]

theorem emplace_front_eq_push_front (s : SLL α) (v : α) :
    s.emplace_front v = s.push_front v := by
  cases hc : s.chain <;> simp [push_front, emplace_front, hc]

theorem push_back_eq (s : SLL α) (h : s.Inv) (v : α) :
    s.push_back v
      = { chain := s.chain ++ [(s.fresh, v)], tail := some s.fresh,
          list_size := s.list_size + 1, fresh := s.fresh + 1 } := by
  obtain ⟨hs, ht, hn, hb⟩ := h
  cases hc : s.chain with
  | nil => simp [push_back, hc]
  | cons a rest =>
      have hlast : (a :: rest).getLast?.map Prod.fst = s.tail := by
        rw [ht, hc]
      rcases hso : s.tail with _ | t
      · rw [hso] at hlast
        cases hgl : (a :: rest).getLast? with
        | none => exact absurd (List.getLast?_eq_none_iff.mp hgl) (by simp)
        | some b => rw [hgl] at hlast; simp at hlast
      · rw [hso] at hlast
        have hsn := setNext_eq t (s.fresh, v) (a :: rest) hlast
          (by have := hn; rw [ids, hc] at this; exact this)
        simp [push_back, hc, hso, hsn]

theorem emplace_back_eq_push_back (s : SLL α) (v : α) :
    s.emplace_back v = s.push_back v := by
  rcases hc : s.chain with _ | ⟨a, rest⟩ <;> rcases hso : s.tail with _ | t <;>
    simp [push_back, emplace_back, hc, hso]

/-! ### Invariant preservation, operation by operation -/

theorem inv_empty : (empty : SLL α).Inv := by
  exact ⟨rfl, rfl, List.nodup_nil, by simp [empty, ids]⟩

theorem inv_clear (s : SLL α) : s.clear.Inv := by
  exact ⟨rfl, rfl, List.nodup_nil, by simp [clear, ids]⟩

theorem inv_push_front (s : SLL α) (h : s.Inv) (v : α) : (s.push_front v).Inv := by
  obtain ⟨hs, ht, hn, hb⟩ := h
  rw [push_front_def]
  refine ⟨by simp [hs], ?_, ?_, ?_⟩
  · cases hc : s.chain with
    | nil => simp
    | cons a rest => simp [ht, hc, List.getLast?_cons_cons]
  · simp only [ids_mk, List.map_cons, List.nodup_cons]
    exact ⟨fun hmem => lt_irrefl _ (hb _ hmem), hn⟩
  · intro i hi
    simp only [ids_mk, List.map_cons, List.mem_cons] at hi
    rcases hi with rfl | hi
    · exact Nat.lt_succ_self _
    · exact lt_trans (hb _ hi) (Nat.lt_succ_self _)

theorem inv_push_back (s : SLL α) (h : s.Inv) (v : α) : (s.push_back v).Inv := by
  rw [push_back_eq s h v]
  obtain ⟨hs, ht, hn, hb⟩ := h
  refine ⟨by simp [hs], by simp, ?_, ?_⟩
  · simp only [ids_mk, List.map_append, List.map_cons, List.map_nil]
    rw [List.nodup_append]
    refine ⟨hn, List.nodup_singleton _, ?_⟩
    intro i hi
    simp only [List.mem_singleton]
    intro hif
    exact absurd (hb i hi) (by omega)
  · intro i hi
    simp only [ids_mk, List.map_append, List.map_cons, List.map_nil,
      List.mem_append, List.mem_singleton] at hi
    rcases hi with hi | rfl
    · exact lt_trans (hb _ hi) (Nat.lt_succ_self _)
    · exact Nat.lt_succ_self _

theorem inv_pop_front (s : SLL α) (h : s.Inv) : s.pop_front.st.Inv := by
  obtain ⟨hs, ht, hn, hb⟩ := h
  cases hc : s.chain with
  | nil =>
      simp only [pop_front, hc, st_threw]
      exact ⟨hs, ht, hn, hb⟩
  | cons a rest =>
      simp only [pop_front, hc, st_ok]
      refine ⟨by simp [hs, hc], ?_, ?_, ?_⟩
      · cases rest with
        | nil => simp
        | cons b rest' => simp [ht, hc, List.getLast?_cons_cons]
      · have := hn
        rw [ids, hc, List.map_cons, List.nodup_cons] at this
        exact this.2
      · intro i hi
        apply hb
        rw [ids, hc]
        simp only [List.map_cons, List.mem_cons]
        right
        exact hi

theorem fst_ne_of_getElem?_ne {l : List (Nat × α)}
    (hn : (l.map Prod.fst).Nodup) {i j : Nat} {a b : Nat × α}
    (hi : l[i]? = some a) (hj : l[j]? = some b) (hij : i ≠ j) : a.1 ≠ b.1 := by
  obtain ⟨hil, hia⟩ := List.getElem?_eq_some_iff.mp hi
  obtain ⟨hjl, hjb⟩ := List.getElem?_eq_some_iff.mp hj
  intro hab
  have hil' : i < (l.map Prod.fst).length := by simpa using hil
  have hjl' : j < (l.map Prod.fst).length := by simpa using hjl
  apply hij
  exact (@List.Nodup.getElem_inj_iff _ _ hn i hil' j hjl').mp
    (by rw [List.getElem_map, List.getElem_map, hia, hjb]; exact hab)

theorem pop_back_eq (s : SLL α) (h : s.Inv) (a : Nat × α) (rest : List (Nat × α))
    (hc : s.chain = a :: rest) (hat : s.tail ≠ some a.1) :
    s.pop_back
      = .ok () { chain := s.chain.dropLast,
                 tail := s.chain.dropLast.getLast?.map Prod.fst,
                 list_size := s.list_size - 1, fresh := s.fresh } := by
  obtain ⟨hs, ht, hn, hb⟩ := h
  rcases hso : s.tail with _ | t
  · exfalso
    rw [hso] at ht
    cases hgl : s.chain.getLast? with
    | none => rw [hc] at hgl; exact absurd (List.getLast?_eq_none_iff.mp hgl) (by simp)
    | some b => rw [hgl] at ht; simp at ht
  · have hlast : s.chain.getLast?.map Prod.fst = some t := by rw [← ht, hso]
    have hhead : s.chain.head?.map Prod.fst ≠ some t := by
      rw [hc]
      simp only [List.head?_cons, Option.map_some', ne_eq, Option.some.injEq]
      intro hvt
      exact hat (by rw [hso, hvt])
    have hpc := popBackChain_eq t s.chain hlast hn hhead
    rw [hso] at hat
    have hred : s.pop_back
        = .ok () { chain := popBackChain s.tail s.chain,
                   tail := (popBackChain s.tail s.chain).getLast?.map Prod.fst,
                   list_size := s.list_size - 1, fresh := s.fresh } := by
      simp only [pop_back, hc, hso]
      rw [if_neg (by simpa using hat)]
    rw [hred, hso, hpc]

theorem inv_pop_back (s : SLL α) (h : s.Inv) : s.pop_back.st.Inv := by
  obtain ⟨hs, ht, hn, hb⟩ := h
  cases hc : s.chain with
  | nil =>
      simp only [pop_back, hc, st_threw]
      exact ⟨hs, ht, hn, hb⟩
  | cons a rest =>
      by_cases hat : s.tail = some a.1
      · have hpf : s.pop_back = s.pop_front := by
          simp only [pop_back, pop_front, hc]
          rw [if_pos (by simpa using hat)]
        rw [hpf]
        exact inv_pop_front s ⟨hs, ht, hn, hb⟩
      · rw [pop_back_eq s ⟨hs, ht, hn, hb⟩ a rest hc hat, st_ok]
        have hsub : (s.chain.dropLast.map Prod.fst).Sublist (s.chain.map Prod.fst) :=
          (List.dropLast_sublist s.chain).map Prod.fst
        refine ⟨?_, rfl, ?_, ?_⟩
        · show s.list_size - 1 = s.chain.dropLast.length
          rw [List.length_dropLast, hs]
        · exact hsub.nodup hn
        · intro i hi
          exact hb i (hsub.subset hi)

theorem insert_after_ok (s : SLL α) (h : s.Inv) (p : Nat) (i : Nat) (x v : α)
    (hi : s.chain[i]? = some (p, x)) :
    s.insert_after (some p) v
      = .ok (some s.fresh)
          { chain := s.chain.take (i + 1) ++ (s.fresh, v) :: s.chain.drop (i + 1),
            tail := if s.tail = some p then some s.fresh else s.tail,
            list_size := s.list_size + 1, fresh := s.fresh + 1 }
    ∧ (s.insert_after (some p) v).st.Inv := by
  obtain ⟨hs, ht, hn, hb⟩ := h
  rw [ids] at hn hb
  have hilen : i < s.chain.length := (List.getElem?_eq_some_iff.mp hi).1
  have hchain := insertAfterChain_eq p (s.fresh, v) s.chain i x hn hi
  have heq : s.insert_after (some p) v
      = .ok (some s.fresh)
          { chain := s.chain.take (i + 1) ++ (s.fresh, v) :: s.chain.drop (i + 1),
            tail := if s.tail = some p then some s.fresh else s.tail,
            list_size := s.list_size + 1, fresh := s.fresh + 1 } := by
    simp only [insert_after, hchain]
  refine ⟨heq, ?_⟩
  rw [heq, st_ok]
  have hperm : ((s.chain.take (i + 1) ++ (s.fresh, v) :: s.chain.drop (i + 1)).map
      Prod.fst).Perm (s.fresh :: s.chain.map Prod.fst) := by
    rw [List.map_append, List.map_cons]
    refine (List.perm_middle).trans ?_
    rw [← List.map_append, List.take_append_drop]
  refine ⟨?_, ?_, ?_, ?_⟩
  · show s.list_size + 1
        = (s.chain.take (i + 1) ++ (s.fresh, v) :: s.chain.drop (i + 1)).length
    rw [List.length_append, List.length_cons, List.length_take, List.length_drop]
    rw [hs]
    omega
  · show (if s.tail = some p then some s.fresh else s.tail)
        = (s.chain.take (i + 1) ++ (s.fresh, v) :: s.chain.drop (i + 1)).getLast?.map
            Prod.fst
    by_cases hd : s.chain.drop (i + 1) = []
    · have hlen : s.chain.length ≤ i + 1 := List.drop_eq_nil_iff.mp hd
      have hieq : i = s.chain.length - 1 := by omega
      have hlast : s.chain.getLast? = some (p, x) := by
        rw [List.getLast?_eq_getElem?, ← hieq]
        exact hi
      have htp : s.tail = some p := by rw [ht, hlast]; rfl
      rw [if_pos htp, hd, List.getLast?_concat]
      rfl
    · have hine : s.tail ≠ some p := by
        intro htp
        rw [ht] at htp
        obtain ⟨w, hw1, hw2⟩ := Option.map_eq_some'.mp htp
        have hjlen : s.chain.length - 1 < s.chain.length := by omega
        have hlast : s.chain[s.chain.length - 1]? = some w := by
          rw [← List.getLast?_eq_getElem?]
          exact hw1
        have hne : i ≠ s.chain.length - 1 := by
          have : i + 1 < s.chain.length := by
            rcases Nat.lt_or_ge (i + 1) s.chain.length with hlt | hge
            · exact hlt
            · exact absurd (List.drop_eq_nil_iff.mpr hge) hd
          omega
        exact fst_ne_of_getElem?_ne hn hi hlast hne (by rw [hw2])
      rw [if_neg hine]
      rw [List.getLast?_append_of_ne_nil _ (by simp)]
      rcases hdd : s.chain.drop (i + 1) with _ | ⟨d, ds⟩
      · exact absurd hdd hd
      · rw [List.getLast?_cons_cons, ht]
        have : s.chain.getLast? = (d :: ds).getLast? := by
          conv_lhs => rw [← List.take_append_drop (i + 1) s.chain, hdd]
          rw [List.getLast?_append_of_ne_nil _ (by simp)]
        rw [this]
  · show ((s.chain.take (i + 1) ++ (s.fresh, v) :: s.chain.drop (i + 1)).map
        Prod.fst).Nodup
    exact hperm.symm.nodup
      (List.nodup_cons.mpr ⟨fun hmem => lt_irrefl _ (hb _ hmem), hn⟩)
  · intro j hj
    show j < s.fresh + 1
    simp only [ids_mk] at hj
    have hj' : j ∈ s.fresh :: s.chain.map Prod.fst := hperm.mem_iff.mp hj
    rcases List.mem_cons.mp hj' with rfl | hj''
    · exact Nat.lt_succ_self _
    · exact lt_trans (hb _ hj'') (Nat.lt_succ_self _)

theorem inv_insert_after (s : SLL α) (h : s.Inv) (pos : Option Nat) (v : α)
    (hpos : pos = none ∨ ∃ p, pos = some p ∧ p ∈ s.ids) :
    (s.insert_after pos v).st.Inv := by
  rcases hpos with rfl | ⟨p, rfl, hp⟩
  · simp only [insert_after, st_threw]
    exact h
  · obtain ⟨a, hamem, hafst⟩ := List.mem_map.mp hp
    obtain ⟨p', x⟩ := a
    cases hafst
    obtain ⟨i, hi⟩ := List.mem_iff_getElem?.mp hamem
    exact (insert_after_ok s h p' i x v hi).2

theorem emplace_after_some (s : SLL α) (p : Nat) (v : α) :
    s.emplace_after (some p) v = s.insert_after (some p) v := rfl

theorem inv_emplace_after (s : SLL α) (h : s.Inv) (pos : Option Nat) (v : α)
    (hpos : pos = none ∨ ∃ p, pos = some p ∧ p ∈ s.ids) :
    (s.emplace_after pos v).st.Inv := by
  rcases hpos with rfl | ⟨p, rfl, hp⟩
  · simp only [emplace_after, st_threw]
    exact h
  · rw [emplace_after_some]
    exact inv_insert_after s h (some p) v (Or.inr ⟨p, rfl, hp⟩)

theorem erase_after_ok (s : SLL α) (h : s.Inv) (p q : Nat) (i : Nat) (x y : α)
    (hi : s.chain[i]? = some (p, x)) (hq : s.chain[i + 1]? = some (q, y)) :
    s.erase_after (some p)
      = .ok (s.chain[i + 2]?.map Prod.fst)
          { chain := s.chain.take (i + 1) ++ s.chain.drop (i + 2),
            tail := if s.tail = some q then some p else s.tail,
            list_size := s.list_size - 1, fresh := s.fresh }
    ∧ (s.erase_after (some p)).st.Inv := by
  obtain ⟨hs, ht, hn, hb⟩ := h
  rw [ids] at hn hb
  have hq1len : i + 1 < s.chain.length := (List.getElem?_eq_some_iff.mp hq).1
  have hnext : nextOf s.chain p = some (q, y) := by
    rw [nextOf_eq s.chain i p x hn hi, hq]
  have hnext2 : nextOf s.chain q = s.chain[i + 2]? :=
    nextOf_eq s.chain (i + 1) q y hn hq
  have hchain := eraseAfterChain_eq p s.chain i x hn hi
  have heq : s.erase_after (some p)
      = .ok (s.chain[i + 2]?.map Prod.fst)
          { chain := s.chain.take (i + 1) ++ s.chain.drop (i + 2),
            tail := if s.tail = some q then some p else s.tail,
            list_size := s.list_size - 1, fresh := s.fresh } := by
    simp only [erase_after, hnext, hnext2, hchain]
  have hsub : ((s.chain.take (i + 1) ++ s.chain.drop (i + 2)).map Prod.fst).Sublist
      (s.chain.map Prod.fst) := by
    refine List.Sublist.map Prod.fst ?_
    conv_rhs => rw [← List.take_append_drop (i + 1) s.chain]
    refine List.Sublist.append_left ?_ _
    have h12 : i + 2 = i + 1 + 1 := by omega
    rw [h12, ← List.drop_drop]
    exact List.drop_sublist 1 _
  refine ⟨heq, ?_⟩
  rw [heq, st_ok]
  refine ⟨?_, ?_, ?_, ?_⟩
  · show s.list_size - 1 = (s.chain.take (i + 1) ++ s.chain.drop (i + 2)).length
    rw [List.length_append, List.length_take, List.length_drop, hs]
    omega
  · show (if s.tail = some q then some p else s.tail)
        = (s.chain.take (i + 1) ++ s.chain.drop (i + 2)).getLast?.map Prod.fst
    by_cases hd : s.chain.drop (i + 2) = []
    · have hlen : s.chain.length ≤ i + 2 := List.drop_eq_nil_iff.mp hd
      have hieq : i + 1 = s.chain.length - 1 := by omega
      have hlast : s.chain.getLast? = some (q, y) := by
        rw [List.getLast?_eq_getElem?, ← hieq]
        exact hq
      have htq : s.tail = some q := by rw [ht, hlast]; rfl
      rw [if_pos htq, hd, List.append_nil]
      rw [List.getLast?_take]
      rw [if_neg (by omega)]
      have : s.chain[i + 1 - 1]? = some (p, x) := by
        rw [show i + 1 - 1 = i from rfl]
        exact hi
      rw [this]
      rfl
    · have hine : s.tail ≠ some q := by
        intro htq
        rw [ht] at htq
        obtain ⟨w, hw1, hw2⟩ := Option.map_eq_some'.mp htq
        have hlast : s.chain[s.chain.length - 1]? = some w := by
          rw [← List.getLast?_eq_getElem?]
          exact hw1
        have hne : i + 1 ≠ s.chain.length - 1 := by
          have : i + 2 < s.chain.length := by
            rcases Nat.lt_or_ge (i + 2) s.chain.length with hlt | hge
            · exact hlt
            · exact absurd (List.drop_eq_nil_iff.mpr hge) hd
          omega
        exact fst_ne_of_getElem?_ne hn hq hlast hne (by rw [hw2])
      rw [if_neg hine]
      rw [List.getLast?_append_of_ne_nil _ hd, ht]
      congr 1
      conv_lhs => rw [← List.take_append_drop (i + 2) s.chain]
      rw [List.getLast?_append_of_ne_nil _ hd]
  · exact hsub.nodup hn
  · intro j hj
    simp only [ids_mk] at hj
    exact hb j (hsub.subset hj)

theorem erase_after_none (s : SLL α) :
    s.erase_after none
      = .threw (.out_of_range "Cannot erase_after: no next element") s := rfl

theorem erase_after_last (s : SLL α) (h : s.Inv) (p : Nat) (x : α)
    (hl : s.chain.getLast? = some (p, x)) :
    s.erase_after (some p)
      = .threw (.out_of_range "Cannot erase_after: no next element") s := by
  obtain ⟨hs, ht, hn, hb⟩ := h
  rw [ids] at hn
  have hne : s.chain ≠ [] := by
    intro hc
    rw [hc] at hl
    simp at hl
  have hi : s.chain[s.chain.length - 1]? = some (p, x) := by
    rw [← List.getLast?_eq_getElem?]
    exact hl
  have hnext : nextOf s.chain p = none := by
    rw [nextOf_eq s.chain (s.chain.length - 1) p x hn hi]
    apply List.getElem?_eq_none
    have : 0 < s.chain.length := List.length_pos.mpr hne
    omega
  simp only [erase_after, hnext]

theorem inv_erase_after (s : SLL α) (h : s.Inv) (pos : Option Nat)
    (hpos : pos = none ∨ ∃ p, pos = some p ∧ p ∈ s.ids) :
    (s.erase_after pos).st.Inv := by
  rcases hpos with rfl | ⟨p, rfl, hp⟩
  · rw [erase_after_none, st_threw]
    exact h
  · obtain ⟨a, hamem, hafst⟩ := List.mem_map.mp hp
    obtain ⟨p', x⟩ := a
    cases hafst
    obtain ⟨i, hi⟩ := List.mem_iff_getElem?.mp hamem
    cases hq : s.chain[i + 1]? with
    | none =>
        have hnext : nextOf s.chain p' = none := by
          rw [nextOf_eq s.chain i p' x h.2.2.1 hi, hq]
        simp only [erase_after, hnext, st_threw]
        exact h
    | some b =>
        obtain ⟨q, y⟩ := b
        exact (erase_after_ok s h p' q i x y hi hq).2

theorem inv_reverse (s : SLL α) (h : s.Inv) : s.reverse.Inv := by
  obtain ⟨hs, ht, hn, hb⟩ := h
  unfold reverse
  by_cases hlt : s.list_size < 2
  · rw [if_pos hlt]
    exact ⟨hs, ht, hn, hb⟩
  · rw [if_neg hlt]
    refine ⟨?_, ?_, ?_, ?_⟩
    · show s.list_size = (revLoop [] s.chain).length
      rw [revLoop_eq]
      simp [hs]
    · show s.chain.head?.map Prod.fst = (revLoop [] s.chain).getLast?.map Prod.fst
      rw [revLoop_eq, List.append_nil, List.getLast?_reverse]
    · show ((revLoop [] s.chain).map Prod.fst).Nodup
      rw [revLoop_eq]
      simp only [List.append_nil, List.map_reverse, List.nodup_reverse]
      exact hn
    · intro i hi
      show i < s.fresh
      apply hb
      simp only [ids_mk, revLoop_eq, List.append_nil, List.map_reverse,
        List.mem_reverse] at hi
      exact hi

theorem inv_swapLists (a b : SLL α) (ha : a.Inv) (hb : b.Inv) :
    (swapLists a b).1.Inv ∧ (swapLists a b).2.Inv := ⟨hb, ha⟩

theorem inv_moveCtor (s : SLL α) (h : s.Inv) :
    (moveCtor s).1.Inv ∧ (moveCtor s).2.Inv := by
  refine ⟨h, ?_⟩
  exact ⟨rfl, rfl, List.nodup_nil, by simp [moveCtor, ids]⟩

theorem elems_push_back (s : SLL α) (h : s.Inv) (v : α) :
    (s.push_back v).elems = s.elems ++ [v] := by
  rw [push_back_eq s h v]
  simp [elems]

theorem size_push_back (s : SLL α) (h : s.Inv) (v : α) :
    (s.push_back v).list_size = s.list_size + 1 := by
  rw [push_back_eq s h v]

theorem foldl_push_back_spec (xs : List α) :
    ∀ s : SLL α, s.Inv →
      (xs.foldl push_back s).Inv
      ∧ (xs.foldl push_back s).elems = s.elems ++ xs
      ∧ (xs.foldl push_back s).list_size = s.list_size + xs.length := by
  induction xs with
  | nil =>
      intro s h
      exact ⟨h, by simp, rfl⟩
  | cons x xs ih =>
      intro s h
      have h1 := inv_push_back s h x
      obtain ⟨ha, he, hsz⟩ := ih (s.push_back x) h1
      rw [List.foldl_cons] at *
      refine ⟨ha, ?_, ?_⟩
      · rw [he, elems_push_back s h x]
        simp
      · rw [hsz, size_push_back s h x, List.length_cons]
        omega

theorem ofList_spec (l : List α) :
    (ofList l).Inv ∧ (ofList l).elems = l ∧ (ofList l).list_size = l.length := by
  have h := foldl_push_back_spec l empty inv_empty
  simpa [ofList, empty, elems] using h

theorem copyCtor_spec (s : SLL α) :
    (copyCtor s).Inv ∧ (copyCtor s).elems = s.elems
    ∧ (copyCtor s).list_size = s.elems.length := by
  have h := foldl_push_back_spec s.elems empty inv_empty
  simpa [copyCtor, empty, elems] using h

theorem iterFrom_eq (s : SLL α) (h : s.Inv) (n : Nat) :
    s.iterFrom n = (s.chain.drop n).head?.map Prod.fst := by
  induction n with
  | zero => rfl
  | succ n ih =>
      show s.iterNext (s.iterFrom n) = (s.chain.drop (n + 1)).head?.map Prod.fst
      rw [ih]
      cases hd : s.chain.drop n with
      | nil =>
          have hd1 : s.chain.drop (n + 1) = [] := by
            have hlen := List.drop_eq_nil_iff.mp hd
            exact List.drop_eq_nil_iff.mpr (by omega)
          simp [iterNext, hd1]
      | cons a rest =>
          obtain ⟨p, x⟩ := a
          have hcn : s.chain[n]? = some (p, x) := by
            rw [← List.head?_drop, hd, List.head?_cons]
          have hnext := nextOf_eq s.chain n p x h.2.2.1 hcn
          simp only [iterNext, List.head?_cons, Option.map_some', Option.some_bind]
          rw [hnext, List.head?_drop]

theorem iterFrom_none_iff (s : SLL α) (h : s.Inv) (n : Nat) :
    s.iterFrom n = none ↔ s.list_size ≤ n := by
  rw [iterFrom_eq s h n, h.1]
  constructor
  · intro hnone
    by_contra hlt
    push_neg at hlt
    cases hd : s.chain.drop n with
    | nil => exact absurd (List.drop_eq_nil_iff.mp hd) (by omega)
    | cons a rest => rw [hd] at hnone; simp at hnone
  · intro hle
    rw [List.drop_eq_nil_iff.mpr hle]
    rfl

/-! ### The claims -/

/-- C1: every public operation of `SinglyLinkedList` preserves the
representation invariant: the cached count is 0 iff `head_` is null iff
`tail_` is null; when non-null, `tail_` points to the node whose next link
is null (the last chain node); `size()` equals the number of elements
visited by forward traversal from `begin()` to `end()` (the iterator from
`begin()` becomes the end sentinel after exactly `size()` increments); and
`push_front`, `push_back`, `emplace_front`, `emplace_back`, `pop_front`,
`pop_back`, `insert_after`, `emplace_after`, `erase_after` (at the end
sentinel or any live position), `reverse`, `clear`, `swap`, copy/move
construction and assignment all preserve `Inv`. -/
theorem C1_invariant_preservation (s t : SLL α) (hs : s.Inv) (ht : t.Inv)
    (v : α) :
    ((s.list_size = 0 ↔ s.chain = []) ∧ (s.chain = [] ↔ s.tail = none)
      ∧ s.list_size = s.chain.length
      ∧ (∀ n, s.iterFrom n = none ↔ s.list_size ≤ n))
    ∧ (empty : SLL α).Inv
    ∧ (s.push_front v).Inv
    ∧ (s.emplace_front v).Inv
    ∧ (s.push_back v).Inv
    ∧ (s.emplace_back v).Inv
    ∧ s.pop_front.st.Inv
    ∧ s.pop_back.st.Inv
    ∧ (∀ pos, (pos = none ∨ ∃ p, pos = some p ∧ p ∈ s.ids) →
        (s.insert_after pos v).st.Inv)
    ∧ (∀ pos, (pos = none ∨ ∃ p, pos = some p ∧ p ∈ s.ids) →
        (s.emplace_after pos v).st.Inv)
    ∧ (∀ pos, (pos = none ∨ ∃ p, pos = some p ∧ p ∈ s.ids) →
        (s.erase_after pos).st.Inv)
    ∧ s.reverse.Inv
    ∧ s.clear.Inv
    ∧ (swapLists s t).1.Inv ∧ (swapLists s t).2.Inv
    ∧ (copyCtor s).Inv
    ∧ (moveCtor s).1.Inv ∧ (moveCtor s).2.Inv
    ∧ (copyAssign s t).Inv
    ∧ (moveAssign s t).1.Inv ∧ (moveAssign s t).2.Inv := by
  obtain ⟨h1, h2, h3, h4⟩ := hs
  refine ⟨⟨?_, ?_, h1, fun n => iterFrom_none_iff s ⟨h1, h2, h3, h4⟩ n⟩,
    inv_empty, inv_push_front s ⟨h1, h2, h3, h4⟩ v, ?_,
    inv_push_back s ⟨h1, h2, h3, h4⟩ v, ?_,
    inv_pop_front s ⟨h1, h2, h3, h4⟩, inv_pop_back s ⟨h1, h2, h3, h4⟩,
    fun pos hpos => inv_insert_after s ⟨h1, h2, h3, h4⟩ pos v hpos,
    fun pos hpos => inv_emplace_after s ⟨h1, h2, h3, h4⟩ pos v hpos,
    fun pos hpos => inv_erase_after s ⟨h1, h2, h3, h4⟩ pos hpos,
    inv_reverse s ⟨h1, h2, h3, h4⟩, inv_clear s,
    (inv_swapLists s t ⟨h1, h2, h3, h4⟩ ht).1,
    (inv_swapLists s t ⟨h1, h2, h3, h4⟩ ht).2,
    (copyCtor_spec s).1,
    (inv_moveCtor s ⟨h1, h2, h3, h4⟩).1, (inv_moveCtor s ⟨h1, h2, h3, h4⟩).2,
    (copyCtor_spec t).1, ht, (inv_moveCtor t ht).2⟩
  · rw [h1]
    exact List.length_eq_zero
  · rw [h2]
    constructor
    · intro hc
      rw [List.getLast?_eq_none_iff.mpr hc]
      rfl
    · intro htl
      cases hgl : s.chain.getLast? with
      | none => exact List.getLast?_eq_none_iff.mp hgl
      | some b => rw [hgl] at htl; simp at htl
  · rw [emplace_front_eq_push_front]
    exact inv_push_front s ⟨h1, h2, h3, h4⟩ v
  · rw [emplace_back_eq_push_back]
    exact inv_push_back s ⟨h1, h2, h3, h4⟩ v

/-- Witness for C1 at concrete lists: the hypotheses hold for `[1, 2, 3]`
and `[4]`, and `push_front` preserves the invariant there. -/
theorem C1_witness :
    (ofList [1, 2, 3] : SLL Nat).Inv ∧ (ofList [4] : SLL Nat).Inv
    ∧ ((ofList [1, 2, 3] : SLL Nat).push_front 9).Inv :=
  ⟨by decide, by decide,
    (C1_invariant_preservation (ofList [1, 2, 3]) (ofList [4])
      (by decide) (by decide) 9).2.2.1⟩

/-- C2: on a well-formed list, `insert_after(pos, v)` at a live position
(node id `p`, sitting at chain index `i`) links a new node holding `v`
between `pos`'s node and its former successor, makes the new node the tail
when `pos`'s node was the tail, increments the size by 1, leaves all other
elements and their order unchanged (the chain becomes
`take (i+1) ++ new :: drop (i+1)`), and returns an iterator to the new
node; at the end sentinel it throws `std::invalid_argument` and inserts
nothing. -/
theorem C2_insert_after (s : SLL α) (h : s.Inv) (p : Nat) (i : Nat) (x v : α)
    (hp : s.chain[i]? = some (p, x)) :
    s.insert_after (some p) v
      = .ok (some s.fresh)
          { chain := s.chain.take (i + 1) ++ (s.fresh, v) :: s.chain.drop (i + 1),
            tail := if s.tail = some p then some s.fresh else s.tail,
            list_size := s.list_size + 1, fresh := s.fresh + 1 }
    ∧ (s.insert_after (some p) v).st.elems
        = s.elems.take (i + 1) ++ v :: s.elems.drop (i + 1)
    ∧ (s.insert_after (some p) v).st.list_size = s.list_size + 1
    ∧ (s.tail = some p → (s.insert_after (some p) v).st.tail = some s.fresh)
    ∧ (s.insert_after (some p) v).st.Inv
    ∧ (∀ w : α, s.insert_after none w
        = .threw (.invalid_argument "Cannot insert_after a null iterator") s) := by
  obtain ⟨heq, hinv⟩ := insert_after_ok s h p i x v hp
  refine ⟨heq, ?_, ?_, ?_, hinv, fun w => rfl⟩
  · rw [heq, st_ok]
    show (s.chain.take (i + 1) ++ (s.fresh, v) :: s.chain.drop (i + 1)).map
        Prod.snd = s.elems.take (i + 1) ++ v :: s.elems.drop (i + 1)
    rw [List.map_append, List.map_cons, List.map_take, List.map_drop]
    rfl
  · rw [heq, st_ok]
  · intro htp
    rw [heq, st_ok]
    show (if s.tail = some p then some s.fresh else s.tail) = some s.fresh
    rw [if_pos htp]

/-- Witness for C2 on the spec's Scenario 2: inserting `20` after
`begin()` of `[10, 50]` yields `[10, 20, 50]`. -/
theorem C2_witness :
    (ofList [10, 50] : SLL Nat).Inv
    ∧ (ofList [10, 50] : SLL Nat).chain[0]? = some (0, 10)
    ∧ ((ofList [10, 50] : SLL Nat).insert_after (some 0) 20).st.elems
        = [10, 20, 50] := by
  refine ⟨by decide, by decide, ?_⟩
  have h := (C2_insert_after (ofList [10, 50]) (by decide) 0 0 10 20
    (by decide)).2.1
  rw [h]
  decide

/-- C3: on a well-formed list, `erase_after(pos)` at a live position (node
id `p` at chain index `i`) with a live successor (node id `q` at `i + 1`)
removes exactly that successor (the chain becomes
`take (i+1) ++ drop (i+2)`), makes `pos`'s node the new tail when the
removed node was the tail, decrements the size by 1, leaves all other
elements and their order unchanged, and returns an iterator to the node now
following `pos` (the end sentinel when the removed node was last); at the
end sentinel, or when `pos`'s node is the last node (no successor), it
throws `std::out_of_range` and removes nothing. -/
theorem C3_erase_after (s : SLL α) (h : s.Inv) :
    (∀ p q i x y, s.chain[i]? = some (p, x) → s.chain[i + 1]? = some (q, y) →
      s.erase_after (some p)
        = .ok (s.chain[i + 2]?.map Prod.fst)
            { chain := s.chain.take (i + 1) ++ s.chain.drop (i + 2),
              tail := if s.tail = some q then some p else s.tail,
              list_size := s.list_size - 1, fresh := s.fresh }
      ∧ (s.erase_after (some p)).st.elems
          = s.elems.take (i + 1) ++ s.elems.drop (i + 2)
      ∧ (s.erase_after (some p)).st.list_size = s.list_size - 1
      ∧ (s.tail = some q → (s.erase_after (some p)).st.tail = some p)
      ∧ (s.erase_after (some p)).st.Inv)
    ∧ s.erase_after none
        = .threw (.out_of_range "Cannot erase_after: no next element") s
    ∧ (∀ r z, s.chain.getLast? = some (r, z) →
        s.erase_after (some r)
          = .threw (.out_of_range "Cannot erase_after: no next element") s) := by
  refine ⟨?_, erase_after_none s, fun r z hl => erase_after_last s h r z hl⟩
  intro p q i x y hp hq
  obtain ⟨heq, hinv⟩ := erase_after_ok s h p q i x y hp hq
  refine ⟨heq, ?_, ?_, ?_, hinv⟩
  · rw [heq, st_ok]
    show (s.chain.take (i + 1) ++ s.chain.drop (i + 2)).map Prod.snd
        = s.elems.take (i + 1) ++ s.elems.drop (i + 2)
    rw [List.map_append, List.map_take, List.map_drop]
    rfl
  · rw [heq, st_ok]
  · intro htq
    rw [heq, st_ok]
    show (if s.tail = some q then some p else s.tail) = some p
    rw [if_pos htq]

/-- Witness for C3 on the spec's Scenario 2: erasing after `begin()` of
`[10, 20, 50]` yields `[10, 50]`, and erasing after the tail of `[10, 50]`
throws. -/
theorem C3_witness :
    (ofList [10, 20, 50] : SLL Nat).Inv
    ∧ (ofList [10, 20, 50] : SLL Nat).chain[0]? = some (0, 10)
    ∧ (ofList [10, 20, 50] : SLL Nat).chain[1]? = some (1, 20)
    ∧ ((ofList [10, 20, 50] : SLL Nat).erase_after (some 0)).st.elems
        = [10, 50] := by
  refine ⟨by decide, by decide, by decide, ?_⟩
  have h := ((C3_erase_after (ofList [10, 20, 50]) (by decide)).1
    0 1 0 10 20 (by decide) (by decide)).2.1
  rw [h]
  decide

/-- C4: each of `front()`, `back()`, `pop_front()`, `pop_back()` fails by
throwing `std::out_of_range` ("EmptyContainer") exactly when the count is
0, and on an empty list each throws its specific message. -/
theorem C4_empty_container_errors (s : SLL α) (h : s.Inv) :
    (s.front.isThrew = true ↔ s.list_size = 0)
    ∧ (s.back.isThrew = true ↔ s.list_size = 0)
    ∧ (s.pop_front.isThrew = true ↔ s.list_size = 0)
    ∧ (s.pop_back.isThrew = true ↔ s.list_size = 0)
    ∧ (s.list_size = 0 →
        s.front = .threw (.out_of_range "Accessing front() on an empty list") s
        ∧ s.back = .threw (.out_of_range "Accessing back() on an empty list") s
        ∧ s.pop_front = .threw (.out_of_range "pop_front on an empty list") s
        ∧ s.pop_back = .threw (.out_of_range "pop_back on an empty list") s) := by
  obtain ⟨h1, h2, h3, h4⟩ := h
  cases hc : s.chain with
  | nil =>
      have hsz : s.list_size = 0 := by rw [h1, hc]; rfl
      have htl : s.tail = none := by
        rw [h2, hc]
        rfl
      refine ⟨?_, ?_, ?_, ?_, fun _ => ⟨?_, ?_, ?_, ?_⟩⟩ <;>
        simp [front, back, pop_front, pop_back, hc, htl, hsz]
  | cons a rest =>
      have hsz : s.list_size ≠ 0 := by
        rw [h1, hc]
        simp
      have htl : ∃ t, s.tail = some t := by
        rw [h2, hc]
        cases hgl : (a :: rest).getLast? with
        | none => exact absurd (List.getLast?_eq_none_iff.mp hgl) (by simp)
        | some b => exact ⟨b.1, rfl⟩
      obtain ⟨t, htl⟩ := htl
      have hpb : s.pop_back.isThrew = false := by
        by_cases hcond : s.tail = some a.1
        · simp [pop_back, pop_front, hc, hcond]
        · simp only [pop_back, hc]
          rw [if_neg (by simpa using hcond)]
          rfl
      refine ⟨?_, ?_, ?_, ?_, fun hz => absurd hz hsz⟩ <;>
        simp [front, back, pop_front, hc, htl, hsz, hpb]

/-- Witness for C4: applying the theorem to the empty list shows all four
operations throw there. -/
theorem C4_witness :
    (empty : SLL Nat).Inv
    ∧ ((empty : SLL Nat).front.isThrew = true ↔ (empty : SLL Nat).list_size = 0) := by
  exact ⟨by decide, (C4_empty_container_errors (empty : SLL Nat) (by decide)).1⟩

/-- C5: `reverse()` is an involution on well-formed lists; on size ≥ 2 a
single `reverse()` produces the reversed element sequence (former tail
first, former head last), preserving the multiset of elements and the
size; on size < 2 it changes nothing, and it never fails. -/
theorem C5_reverse_involution (s : SLL α) (h : s.Inv) :
    s.reverse.reverse = s
    ∧ (2 ≤ s.list_size →
        s.reverse.elems = s.elems.reverse
        ∧ s.reverse.elems.head? = s.elems.getLast?
        ∧ s.reverse.elems.getLast? = s.elems.head?
        ∧ s.reverse.elems.Perm s.elems
        ∧ s.reverse.list_size = s.list_size)
    ∧ (s.list_size < 2 → s.reverse = s) := by
  obtain ⟨c, tl, n, f⟩ := s
  obtain ⟨h1, h2, h3, h4⟩ := h
  by_cases hlt : n < 2
  · have hrs : reverse ⟨c, tl, n, f⟩ = ⟨c, tl, n, f⟩ := by
      unfold reverse
      rw [if_pos (by simpa using hlt)]
    exact ⟨by rw [hrs, hrs], fun h2le => absurd h2le (by simpa using hlt),
      fun _ => hrs⟩
  · have hrev : reverse ⟨c, tl, n, f⟩
        = ⟨c.reverse, c.head?.map Prod.fst, n, f⟩ := by
      unfold reverse
      rw [if_neg (by simpa using hlt), revLoop_eq, List.append_nil]
    have h2le : 2 ≤ n := by omega
    refine ⟨?_, fun _ => ⟨?_, ?_, ?_, ?_, ?_⟩, fun hl => absurd hl (by simpa using hlt)⟩
    · rw [hrev]
      unfold reverse
      rw [if_neg (by simpa using hlt), revLoop_eq, List.append_nil]
      simp only [List.reverse_reverse, List.head?_reverse, SLL.mk.injEq]
      exact ⟨trivial, h2.symm, trivial, trivial⟩
    · rw [hrev]
      simp only [elems_mk, List.map_reverse]
    · rw [hrev]
      simp only [elems_mk, List.map_reverse, List.head?_reverse]
    · rw [hrev]
      simp only [elems_mk, List.map_reverse, List.getLast?_reverse]
    · rw [hrev]
      simp only [elems_mk, List.map_reverse]
      exact List.reverse_perm _
    · rw [hrev]

/-- Witness for C5 on the spec's Scenario 5: `[10, 20, 30, 60]` reversed
twice is itself, and reversed once is `[60, 30, 20, 10]`. -/
theorem C5_witness :
    (ofList [10, 20, 30, 60] : SLL Nat).Inv
    ∧ (ofList [10, 20, 30, 60] : SLL Nat).reverse.reverse
        = ofList [10, 20, 30, 60]
    ∧ (ofList [10, 20, 30, 60] : SLL Nat).reverse.elems = [60, 30, 20, 10] := by
  refine ⟨by decide, (C5_reverse_involution (ofList [10, 20, 30, 60])
    (by decide)).1, ?_⟩
  have h := ((C5_reverse_involution (ofList [10, 20, 30, 60])
    (by decide)).2.1 (by decide)).1
  rw [h]
  decide

/-- C6: whenever an operation fails (`front`, `back`, `pop_front`,
`pop_back` on an empty list; `insert_after`/`emplace_after` at the end
sentinel; `erase_after` without a successor), the list state carried out of
the call is exactly the state it was called in: every throw happens before
any mutation of `head_`, `tail_` or `list_size`.  Proven for every state,
not only well-formed ones. -/
theorem C6_failed_calls_atomic (s : SLL α) :
    (∀ e t, s.front = .threw e t → t = s)
    ∧ (∀ e t, s.back = .threw e t → t = s)
    ∧ (∀ e t, s.pop_front = .threw e t → t = s)
    ∧ (∀ e t, s.pop_back = .threw e t → t = s)
    ∧ (∀ pos v e t, s.insert_after pos v = .threw e t → t = s)
    ∧ (∀ pos v e t, s.emplace_after pos v = .threw e t → t = s)
    ∧ (∀ pos e t, s.erase_after pos = .threw e t → t = s) := by
  refine ⟨?_, ?_, ?_, ?_, ?_, ?_, ?_⟩
  · intro e t h
    cases hc : s.chain with
    | nil =>
        have hred : s.front = OpResult.threw (.out_of_range
            "Accessing front() on an empty list") s := by simp [front, hc]
        rw [hred] at h
        exact ((OpResult.threw.injEq _ _ _ _).mp h).2.symm
    | cons a rest => simp [front, hc] at h
  · intro e t h
    cases hso : s.tail with
    | none =>
        have hred : s.back = OpResult.threw (.out_of_range
            "Accessing back() on an empty list") s := by simp [back, hso]
        rw [hred] at h
        exact ((OpResult.threw.injEq _ _ _ _).mp h).2.symm
    | some p => simp [back, hso] at h
  · intro e t h
    cases hc : s.chain with
    | nil =>
        have hred : s.pop_front = OpResult.threw (.out_of_range
            "pop_front on an empty list") s := by simp [pop_front, hc]
        rw [hred] at h
        exact ((OpResult.threw.injEq _ _ _ _).mp h).2.symm
    | cons a rest => simp [pop_front, hc] at h
  · intro e t h
    cases hc : s.chain with
    | nil =>
        have hred : s.pop_back = OpResult.threw (.out_of_range
            "pop_back on an empty list") s := by simp [pop_back, hc]
        rw [hred] at h
        exact ((OpResult.threw.injEq _ _ _ _).mp h).2.symm
    | cons a rest =>
        by_cases hcond : s.tail = some a.1
        · have hred : s.pop_back = s.pop_front := by
            simp only [pop_back, hc]
            rw [if_pos (by simpa using hcond)]
          rw [hred] at h
          simp [pop_front, hc] at h
        · have hred : s.pop_back
              = OpResult.ok ()
                  { chain := popBackChain s.tail s.chain,
                    tail := (popBackChain s.tail s.chain).getLast?.map Prod.fst,
                    list_size := s.list_size - 1, fresh := s.fresh } := by
            simp only [pop_back, hc]
            rw [if_neg (by simpa using hcond)]
          rw [hred] at h
          simp at h
  · intro pos v e t h
    cases pos with
    | none => exact ((OpResult.threw.injEq _ _ _ _).mp h).2.symm
    | some p => simp [insert_after] at h
  · intro pos v e t h
    cases pos with
    | none => exact ((OpResult.threw.injEq _ _ _ _).mp h).2.symm
    | some p => simp [emplace_after] at h
  · intro pos e t h
    cases pos with
    | none => exact ((OpResult.threw.injEq _ _ _ _).mp h).2.symm
    | some p =>
        cases hn : nextOf s.chain p with
        | none =>
            have hred : s.erase_after (some p) = OpResult.threw (.out_of_range
                "Cannot erase_after: no next element") s := by
              simp [erase_after, hn]
            rw [hred] at h
            exact ((OpResult.threw.injEq _ _ _ _).mp h).2.symm
        | some q => simp [erase_after, hn] at h

/-- Witness for C6: on the empty list, `front()` throws and the state it
carries out equals the state it was called in. -/
theorem C6_witness :
    (empty : SLL Nat).front
        = .threw (.out_of_range "Accessing front() on an empty list") empty
    ∧ (empty : SLL Nat) = empty :=
  ⟨rfl, (C6_failed_calls_atomic (empty : SLL Nat)).1 _ _ rfl⟩

theorem lexLtAux_irrefl [LinearOrder α] : ∀ xs : List α, lexLtAux xs xs = false
  | [] => rfl
  | x :: xs => by
      show (if x < x then true else if x < x then false else lexLtAux xs xs)
          = false
      rw [if_neg (lt_irrefl x), if_neg (lt_irrefl x)]
      exact lexLtAux_irrefl xs

theorem lexLtAux_asymm [LinearOrder α] : ∀ xs ys : List α,
    lexLtAux xs ys = true → lexLtAux ys xs = false
  | [], [] => by intro h; exact absurd h (by simp [lexLtAux])
  | [], y :: ys => fun _ => rfl
  | x :: xs, [] => by intro h; exact absurd h (by simp [lexLtAux])
  | x :: xs, y :: ys => by
      intro h
      by_cases hxy : x < y
      · show (if y < x then true else if x < y then false else lexLtAux ys xs)
            = false
        rw [if_neg (asymm hxy), if_pos hxy]
      · by_cases hyx : y < x
        · rw [show lexLtAux (x :: xs) (y :: ys)
              = (if x < y then true else if y < x then false else lexLtAux xs ys)
              from rfl, if_neg hxy, if_pos hyx] at h
          exact absurd h (by simp)
        · rw [show lexLtAux (x :: xs) (y :: ys)
              = (if x < y then true else if y < x then false else lexLtAux xs ys)
              from rfl, if_neg hxy, if_neg hyx] at h
          show (if y < x then true else if x < y then false else lexLtAux ys xs)
              = false
          rw [if_neg hyx, if_neg hxy]
          exact lexLtAux_asymm xs ys h

theorem lexLtAux_total [LinearOrder α] : ∀ xs ys : List α,
    xs ≠ ys → lexLtAux xs ys = true ∨ lexLtAux ys xs = true
  | [], [], h => absurd rfl h
  | [], _ :: _, _ => Or.inl rfl
  | _ :: _, [], _ => Or.inr rfl
  | x :: xs, y :: ys, h => by
      rcases lt_trichotomy x y with hxy | rfl | hyx
      · left
        show (if x < y then true else if y < x then false else lexLtAux xs ys)
            = true
        rw [if_pos hxy]
      · have hxs : xs ≠ ys := by
          intro he
          exact h (by rw [he])
        rcases lexLtAux_total xs ys hxs with h1 | h1
        · left
          show (if x < x then true else if x < x then false else lexLtAux xs ys)
              = true
          rw [if_neg (lt_irrefl x), if_neg (lt_irrefl x)]
          exact h1
        · right
          show (if x < x then true else if x < x then false else lexLtAux ys xs)
              = true
          rw [if_neg (lt_irrefl x), if_neg (lt_irrefl x)]
          exact h1
      · right
        show (if y < x then true else if x < y then false else lexLtAux ys xs)
            = true
        rw [if_pos hyx]

theorem lexLtAux_append [LinearOrder α] : ∀ (xs t : List α), t ≠ [] →
    lexLtAux xs (xs ++ t) = true
  | [], t, h => by
      cases t with
      | nil => exact absurd rfl h
      | cons a t' => rfl
  | x :: xs, t, h => by
      show (if x < x then true else if x < x then false
        else lexLtAux xs (xs ++ t)) = true
      rw [if_neg (lt_irrefl x), if_neg (lt_irrefl x)]
      exact lexLtAux_append xs t h

theorem stdEqualAux_iff [DecidableEq α] : ∀ xs ys : List α,
    xs.length = ys.length → (stdEqualAux xs ys = true ↔ xs = ys)
  | [], [] => by intro _; simp [stdEqualAux]
  | [], _ :: _ => by intro h; simp at h
  | _ :: _, [] => by intro h; simp at h
  | x :: xs, y :: ys => by
      intro h
      show (x == y && stdEqualAux xs ys) = true ↔ x :: xs = y :: ys
      rw [Bool.and_eq_true, beq_iff_eq,
        stdEqualAux_iff xs ys (by simpa using h)]
      constructor
      · rintro ⟨rfl, rfl⟩
        rfl
      · intro he
        injection he with h1 h2
        exact ⟨h1, h2⟩

/-- C7: for well-formed lists over a totally ordered element type, exactly
one of `a < b`, `a == b`, `b < a` holds; `==` is true iff the element
sequences coincide (sizes match and elements compare equal pairwise in
chain order), and a strict prefix is `<` the longer sequence. -/
theorem C7_ordering_trichotomy [LinearOrder α] (a b : SLL α)
    (ha : a.Inv) (hb : b.Inv) :
    ((opLt a b = true ∧ opEq a b = false ∧ opLt b a = false)
      ∨ (opLt a b = false ∧ opEq a b = true ∧ opLt b a = false)
      ∨ (opLt a b = false ∧ opEq a b = false ∧ opLt b a = true))
    ∧ (opEq a b = true ↔ a.elems = b.elems)
    ∧ (a.elems ≠ b.elems → (∃ t, b.elems = a.elems ++ t) → opLt a b = true) := by
  have hlen : a.size = b.size ↔ a.elems.length = b.elems.length := by
    rw [size, size, ha.1, hb.1, elems, elems, List.length_map, List.length_map]
  have hEqIff : opEq a b = true ↔ a.elems = b.elems := by
    unfold opEq
    by_cases hsz : a.size ≠ b.size
    · rw [if_pos hsz]
      constructor
      · intro hfalse
        exact absurd hfalse (by simp)
      · intro helems
        exact absurd (hlen.mpr (by rw [helems])) hsz
    · rw [if_neg hsz]
      push_neg at hsz
      exact stdEqualAux_iff _ _ (hlen.mp hsz)
  refine ⟨?_, hEqIff, ?_⟩
  · by_cases he : a.elems = b.elems
    · refine Or.inr (Or.inl ⟨?_, hEqIff.mpr he, ?_⟩)
      · unfold opLt
        rw [he]
        exact lexLtAux_irrefl _
      · unfold opLt
        rw [he]
        exact lexLtAux_irrefl _
    · have hne : opEq a b = false := by
        cases hq : opEq a b with
        | false => rfl
        | true => exact absurd (hEqIff.mp hq) he
      rcases lexLtAux_total a.elems b.elems he with h1 | h1
      · exact Or.inl ⟨h1, hne, lexLtAux_asymm _ _ h1⟩
      · exact Or.inr (Or.inr ⟨lexLtAux_asymm _ _ h1, hne, h1⟩)
  · rintro hne ⟨t, ht⟩
    have htne : t ≠ [] := by
      rintro rfl
      rw [List.append_nil] at ht
      exact hne ht.symm
    unfold opLt
    rw [ht]
    exact lexLtAux_append a.elems t htne

/-- Witness for C7 on the spec's Scenario 4: `[1,2,3] < [1,2,4]`, they are
not equal, and not `[1,2,4] < [1,2,3]`. -/
theorem C7_witness :
    (ofList [1, 2, 3] : SLL Nat).Inv ∧ (ofList [1, 2, 4] : SLL Nat).Inv
    ∧ (opLt (ofList [1, 2, 3] : SLL Nat) (ofList [1, 2, 4]) = true
        ∧ opEq (ofList [1, 2, 3] : SLL Nat) (ofList [1, 2, 4]) = false
        ∧ opLt (ofList [1, 2, 4] : SLL Nat) (ofList [1, 2, 3]) = false) := by
  refine ⟨by decide, by decide, ?_⟩
  have h := (C7_ordering_trichotomy (ofList [1, 2, 3]) (ofList [1, 2, 4])
    (by decide) (by decide)).1
  rcases h with h | h | h
  · exact h
  · exact absurd h.2.1 (by decide)
  · exact absurd h.2.2 (by decide)

/-- C8: `push_front(x); pop_front()` returns a well-formed list to its
prior state: the resulting state equals the original one (up to the ghost
allocator counter), with the same elements in the same order, the same
size and the same tail pointer. -/
theorem C8_push_pop_inverse (s : SLL α) (h : s.Inv) (v : α) :
    (s.push_front v).pop_front = .ok () { s with fresh := s.fresh + 1 }
    ∧ (s.push_front v).pop_front.st.elems = s.elems
    ∧ (s.push_front v).pop_front.st.list_size = s.list_size
    ∧ (s.push_front v).pop_front.st.tail = s.tail := by
  obtain ⟨h1, h2, h3, h4⟩ := h
  have key : (s.push_front v).pop_front = .ok () { s with fresh := s.fresh + 1 } := by
    rw [push_front_def]
    cases hc : s.chain with
    | nil =>
        have htl : s.tail = none := by
          rw [h2, hc]
          rfl
        simp [pop_front, hc, htl]
    | cons a rest => simp [pop_front, hc]
  exact ⟨key, by rw [key]; rfl, by rw [key]; rfl, by rw [key]; rfl⟩

/-- Witness for C8 at `[3, 4]` with `9` pushed and popped. -/
theorem C8_witness :
    (ofList [3, 4] : SLL Nat).Inv
    ∧ ((ofList [3, 4] : SLL Nat).push_front 9).pop_front
        = .ok () { ofList [3, 4] with fresh := (ofList [3, 4] : SLL Nat).fresh + 1 } :=
  ⟨by decide, (C8_push_pop_inverse (ofList [3, 4]) (by decide) 9).1⟩

/-- C9: node release by `~SinglyLinkedList()` / `clear()` is NOT iterative:
destroying `head_` cascades through each `Node`'s `unique_ptr<Node> next`
member, nesting one destructor stack frame per node, so the stack depth
equals the list length and is unbounded — for every bound `B` there is a
well-formed list whose destruction exceeds it.  (This refutes the claim's
"bounded stack depth independent of the list's length"; each node is still
released exactly once.) -/
theorem C9_destroy_depth_unbounded :
    (∀ l : List (Nat × Nat), destroyDepth l = l.length)
    ∧ (∀ B : Nat, ∃ s : SLL Nat, s.Inv ∧ s.list_size = B + 1
        ∧ B < destroyDepth s.chain) := by
  have hlen : ∀ l : List (Nat × Nat), destroyDepth l = l.length := by
    intro l
    induction l with
    | nil => rfl
    | cons x xs ih => simp [destroyDepth, ih]
  refine ⟨hlen, fun B => ⟨ofList (List.range (B + 1)), (ofList_spec _).1, ?_, ?_⟩⟩
  · rw [(ofList_spec _).2.2, List.length_range]
  · rw [hlen]
    have h1 := (ofList_spec (List.range (B + 1))).1.1
    have h2 := (ofList_spec (List.range (B + 1))).2.2
    rw [List.length_range] at h2
    omega

/-- C10: self-assignment leaves the list's value unchanged.  Copy
self-assignment `L = L` (copy-and-swap: the by-value parameter deep-copies
`L`, then is swapped in) preserves the elements and the size; move
self-assignment `L = std::move(L)` (the parameter steals `L`'s chain, the
swap hands it straight back) restores the state exactly. -/
theorem C10_self_assignment (l : SLL α) (h : l.Inv) :
    (copySelfAssign l).elems = l.elems
    ∧ (copySelfAssign l).list_size = l.list_size
    ∧ moveSelfAssign l = l := by
  refine ⟨?_, ?_, ?_⟩
  · show (copyCtor l).elems = l.elems
    exact (copyCtor_spec l).2.1
  · show (copyCtor l).list_size = l.list_size
    rw [(copyCtor_spec l).2.2, elems, List.length_map, ← h.1]
  · show (⟨l.chain, l.tail, l.list_size, l.fresh⟩ : SLL α) = l
    rfl

/-- Witness for C10 at `[5, 6]`. -/
theorem C10_witness :
    (ofList [5, 6] : SLL Nat).Inv
    ∧ (copySelfAssign (ofList [5, 6] : SLL Nat)).elems
        = (ofList [5, 6] : SLL Nat).elems :=
  ⟨by decide, (C10_self_assignment (ofList [5, 6]) (by decide)).1⟩

end SLL
